import Mathlib

/-!
Verification of the go-bowtie routing middleware (`middleware` package).

The repository ships the Router facade (`router.go`: `Handle`, `ServeHTTP`,
`GetSupportedMethods`, `NewRouter`) together with a trie-based path matcher
adapted from julienschmidt/httprouter.  The facade is embedded below directly
from the source.  The trie itself (`tree.go`: `node`, `addRoute`, `getValue`,
`findCaseInsensitivePath`, `CleanPath`) is not part of the provided sources,
so those definitions are modelled from the specification (sections 3, 4.1,
4.2, 4.3) and from the package doc comment shipped with the source.

Paths are modelled as lists of characters (Go strings are byte strings and
all routing logic is byte-wise).  Handlers are opaque: a handler list is a
list of numeric handler identifiers.  Fatal registration errors (Go panics)
are modelled by `Option`: `none` means the registration panics.

All recursive tree walks take an explicit fuel argument so that every
definition is structurally recursive and evaluates inside the kernel; the
public wrappers supply fuel that is ample for every tree built through the
registration interface.
-/

namespace Bowtie

/-- Modelled from the spec: the `kind` of a trie vertex — `static` segment,
named parameter, or catch-all parameter (spec section 3, Node data model;
`tree.go` is not in the provided sources). -/
inductive NodeKind where
  | static
  | param
  | catchAll
deriving DecidableEq, BEq, Repr

/-- A single extracted route parameter: `{name, value}` (spec section 3). -/
structure Param where
  name : List Char
  value : List Char
deriving DecidableEq, Repr

/-- Modelled from the spec: a trie vertex (spec section 3; `tree.go` is not in
the provided sources).  `segment` is the substring of the path the node owns;
`handlers` is `some hs` for a route terminus (Go: non-nil handler slice) and
`none` for purely structural nodes; `children` holds the static children;
`wild` holds the at-most-one parameter or catch-all child separately.  The
`priority`/`indices` fields of the spec only reorder sibling probing for
speed and never change lookup results, so they are not carried. -/
inductive Node where
  | mk (segment : List Char) (kind : NodeKind) (handlers : Option (List Nat))
       (children : List Node) (wild : Option Node) : Node

def Node.segment : Node → List Char
  | .mk s _ _ _ _ => s

def Node.kind : Node → NodeKind
  | .mk _ k _ _ _ => k

def Node.handlers : Node → Option (List Nat)
  | .mk _ _ h _ _ => h

def Node.children : Node → List Node
  | .mk _ _ _ c _ => c

def Node.wild : Node → Option Node
  | .mk _ _ _ _ w => w

/-- A freshly allocated node (Go: `new(node)`). -/
def emptyNode : Node := .mk [] .static none [] none

/-- Result of one tree lookup: handler list (`none` = no match), parameters
in path order, and the trailing-slash-redirect hint (spec section 4.2). -/
structure LookupResult where
  handlers : Option (List Nat)
  params : List Param
  tsr : Bool
deriving DecidableEq, Repr

/-- Index of the first static child whose segment starts with byte `c`
(spec section 4.2 step 4: dispatch on the next byte of the remaining path). -/
def staticIdx : List Node → Char → Option Nat
  | [], _ => none
  | n :: tl, c =>
    if n.segment.head? = some c then some 0 else (staticIdx tl c).map (· + 1)

/-- Modelled from the spec: the trailing-slash check used when the remaining
path is exhausted at a handler-less node — appending a `/` reaches a terminal
node either through a static child `/` or through a catch-all child
(spec section 4.2 step 3). -/
def tsrCheck (n : Node) : Bool :=
  (match n.children.find? (fun c => c.segment == ['/']) with
   | some c => c.handlers.isSome
   | none => false) ||
  (match n.wild with
   | some w => w.kind == .catchAll && w.handlers.isSome
   | none => false)

/-- Modelled from the spec: the trie matching algorithm `getValue`
(spec section 4.2; `tree.go` is not in the provided sources).

At a static node the segment is stripped as a literal prefix; exhaustion at a
terminal yields its handlers, exhaustion elsewhere yields the trailing-slash
check; otherwise the next byte dispatches to a static child first and only
then to the wildcard child (static-over-wildcard tie-break, spec section 4.2).
A `param` node consumes up to the next `/` or the end and binds its name; a
`catchAll` node consumes the whole remainder — including the `/` preceding
the catch-all, which the owning static node does not carry (package doc
comment: `/files/*filepath` matches `/files/LICENSE` with
`filepath = "/LICENSE"`).  Mismatches report the redirect hint when the path
plus a trailing slash is exactly the node's segment at a terminal. -/
def getValueGo : Nat → Node → List Char → List Param → LookupResult
  | 0, _, _, ps => ⟨none, ps, false⟩
  | fuel+1, n, path, ps =>
    match n.kind with
    | .catchAll => ⟨n.handlers, ps ++ [⟨n.segment, path⟩], false⟩
    | .param =>
      let value := path.takeWhile (fun c => c != '/')
      let rest := path.dropWhile (fun c => c != '/')
      let ps2 := ps ++ [⟨n.segment, value⟩]
      if rest = [] then
        match n.handlers with
        | some hs => ⟨some hs, ps2, false⟩
        | none => ⟨none, ps2, tsrCheck n⟩
      else
        match staticIdx n.children (rest.headD ' ') with
        | some i => getValueGo fuel (n.children.getD i emptyNode) rest ps2
        | none =>
          match n.wild with
          | some w => getValueGo fuel w rest ps2
          | none => ⟨none, ps2, (rest == ['/']) && n.handlers.isSome⟩
    | .static =>
      if path = n.segment then
        match n.handlers with
        | some hs => ⟨some hs, ps, false⟩
        | none => ⟨none, ps, tsrCheck n⟩
      else if n.segment = path.take n.segment.length then
        let rest := path.drop n.segment.length
        match staticIdx n.children (rest.headD ' ') with
        | some i => getValueGo fuel (n.children.getD i emptyNode) rest ps
        | none =>
          match n.wild with
          | some w => getValueGo fuel w rest ps
          | none => ⟨none, ps, (rest == ['/']) && n.handlers.isSome⟩
      else
        ⟨none, ps, (n.segment == path ++ ['/']) && n.handlers.isSome⟩

/-- Lookup of a concrete path in a method tree (spec section 4.2).  The fuel
bound dominates the walk depth of every tree reachable through registration:
each tree level below the root owns at least one path byte and at most one
parameter node stands between static levels. -/
def Node.getValue (n : Node) (path : List Char) : LookupResult :=
  getValueGo (2 * path.length + 8) n path []

/-- The same trie walk as `getValueGo`, threading the visited tree through
every recursive call and rebuilding it around the returned subtree.  The Go
method reads node fields and never assigns to them; this state-passing
rendering makes that observable: the returned tree is provably the input
tree (spec section 5: once serving starts no mutation occurs). -/
def getValueStGo : Nat → Node → List Char → List Param → LookupResult × Node
  | 0, n, _, ps => (⟨none, ps, false⟩, n)
  | fuel+1, n, path, ps =>
    match n.kind with
    | .catchAll => (⟨n.handlers, ps ++ [⟨n.segment, path⟩], false⟩, n)
    | .param =>
      let value := path.takeWhile (fun c => c != '/')
      let rest := path.dropWhile (fun c => c != '/')
      let ps2 := ps ++ [⟨n.segment, value⟩]
      if rest = [] then
        match n.handlers with
        | some hs => (⟨some hs, ps2, false⟩, n)
        | none => (⟨none, ps2, tsrCheck n⟩, n)
      else
        match staticIdx n.children (rest.headD ' ') with
        | some i =>
          let r2 := getValueStGo fuel (n.children.getD i emptyNode) rest ps2
          (r2.1, .mk n.segment n.kind n.handlers (n.children.set i r2.2) n.wild)
        | none =>
          match n.wild with
          | some w =>
            let r2 := getValueStGo fuel w rest ps2
            (r2.1, .mk n.segment n.kind n.handlers n.children (some r2.2))
          | none => (⟨none, ps2, (rest == ['/']) && n.handlers.isSome⟩, n)
    | .static =>
      if path = n.segment then
        match n.handlers with
        | some hs => (⟨some hs, ps, false⟩, n)
        | none => (⟨none, ps, tsrCheck n⟩, n)
      else if n.segment = path.take n.segment.length then
        let rest := path.drop n.segment.length
        match staticIdx n.children (rest.headD ' ') with
        | some i =>
          let r2 := getValueStGo fuel (n.children.getD i emptyNode) rest ps
          (r2.1, .mk n.segment n.kind n.handlers (n.children.set i r2.2) n.wild)
        | none =>
          match n.wild with
          | some w =>
            let r2 := getValueStGo fuel w rest ps
            (r2.1, .mk n.segment n.kind n.handlers n.children (some r2.2))
          | none => (⟨none, ps, (rest == ['/']) && n.handlers.isSome⟩, n)
      else
        (⟨none, ps, (n.segment == path ++ ['/']) && n.handlers.isSome⟩, n)

/-- State-passing variant of `Node.getValue`; same fuel policy. -/
def Node.getValueSt (n : Node) (path : List Char) : LookupResult × Node :=
  getValueStGo (2 * path.length + 8) n path []

/-- Longest common prefix length of two byte sequences (spec section 4.1
step 2: compare the new path against the node's segment byte-by-byte). -/
def lcpLen : List Char → List Char → Nat
  | a :: as, b :: bs => if a = b then lcpLen as bs + 1 else 0
  | _, _ => 0

/-- Modelled from the spec: locate the first wildcard token of a route
pattern (spec section 4.1 steps 2-3; `tree.go` is not in the provided
sources).  Returns the literal text before the wildcard, whether it is a
catch-all, the wildcard name (up to the next `/` or the end), and the
remaining pattern after the name; `none` when the pattern has no wildcard. -/
def findWildcard : List Char → Option (List Char × Bool × List Char × List Char)
  | [] => none
  | c :: rest =>
    if c = ':' then
      some ([], false, rest.takeWhile (fun x => x != '/'), rest.dropWhile (fun x => x != '/'))
    else if c = '*' then
      some ([], true, rest.takeWhile (fun x => x != '/'), rest.dropWhile (fun x => x != '/'))
    else
      match findWildcard rest with
      | some (lit, ca, name, after) => some (c :: lit, ca, name, after)
      | none => none

/-- A fresh static terminal node. -/
def mkStatic (segment : List Char) (hs : List Nat) : Node :=
  .mk segment .static (some hs) [] none

/-- Attach a wildcard node `w` below a branch position: either directly into
the (necessarily free) wildcard slot when no literal text precedes it, or
wrapped under a fresh static child carrying the literal text (spec
section 4.1 step 2: insert the wildcard as the sole wildcard child).
`none` when the wildcard slot is already taken — a conflicting wildcard
declaration is a fatal registration error (spec section 4.1 step 4). -/
def attachWild (cs : List Node) (w? : Option Node) (lit : List Char) (w : Node) :
    Option (List Node × Option Node) :=
  if lit = [] then
    match w? with
    | none => some (cs, some w)
    | some _ => none
  else some (cs ++ [.mk lit .static none [] (some w)], w?)

/-- Modelled from the spec: build the node chain for a fresh pattern suffix
and attach it at a branch position with static children `cs` and wildcard
slot `w?` (spec section 4.1 steps 2-4; `tree.go` is not in the provided
sources).  A named parameter ends at the next `/`; a catch-all must be the
final token and must directly follow a `/`, and the catch-all node takes
ownership of that `/` (package doc comment: the catch-all matches including
the directory index).  Wildcard names must be non-empty and must not embed
another wildcard.  `none` is a fatal registration error. -/
def attachChain : Nat → List Node → Option Node → List Char → List Nat →
    Option (List Node × Option Node)
  | 0, _, _, _, _ => none
  | fuel+1, cs, w?, path, hs =>
    match findWildcard path with
    | none => some (cs ++ [mkStatic path hs], w?)
    | some (lit, isCA, name, after) =>
      if name = [] then none
      else if name.any (fun c => c = ':' || c = '*') then none
      else if isCA then
        if after ≠ [] then none
        else if lit.getLast? ≠ some '/' then none
        else attachWild cs w? lit.dropLast (.mk name .catchAll (some hs) [] none)
      else
        if after = [] then
          attachWild cs w? lit (.mk name .param (some hs) [] none)
        else
          match attachChain fuel [] none after hs with
          | some (cs2, w2) => attachWild cs w? lit (.mk name .param none cs2 w2)
          | none => none

/-- Modelled from the spec: the trie insertion algorithm `addRoute`
(spec section 4.1; `tree.go` is not in the provided sources).

Walking a static node: when the longest common prefix is shorter than the
node's segment the node is split, its segment remainder, children, wildcard
child and handlers moving onto a fresh child; an exhausted pattern makes the
current node a terminus (a second registration at an existing terminus is a
fatal conflict); a remaining `:name` token must agree with the existing
wildcard child, if any, in kind and name (otherwise fatal) and descends into
it; a remaining `*` token at a position whose `/` is already owned by the
node is fatal; any other remainder descends into the static child sharing
its first byte or is attached as a fresh chain.  A `param` node continues
with the pattern remainder after its name.  Nothing may descend below a
catch-all (spec section 3 invariants). -/
def addRouteGo : Nat → Node → List Char → List Nat → Option Node
  | 0, _, _, _ => none
  | fuel+1, n, path, hs =>
    match n.kind with
    | .catchAll => none
    | .param =>
      if path = [] then
        match n.handlers with
        | some _ => none
        | none => some (.mk n.segment n.kind (some hs) n.children n.wild)
      else
        match staticIdx n.children (path.headD ' ') with
        | some i =>
          match addRouteGo fuel (n.children.getD i emptyNode) path hs with
          | some c2 => some (.mk n.segment n.kind n.handlers (n.children.set i c2) n.wild)
          | none => none
        | none =>
          match attachChain (path.length + 1) n.children n.wild path hs with
          | some (cs2, w2) => some (.mk n.segment n.kind n.handlers cs2 w2)
          | none => none
    | .static =>
      let seg := n.segment
      let lcp := lcpLen path seg
      if lcp < seg.length then
        let child : Node := .mk (seg.drop lcp) n.kind n.handlers n.children n.wild
        let rest := path.drop lcp
        if rest = [] then some (.mk (seg.take lcp) .static (some hs) [child] none)
        else
          match attachChain (rest.length + 1) [child] none rest hs with
          | some (cs2, w2) => some (.mk (seg.take lcp) .static none cs2 w2)
          | none => none
      else
        let rest := path.drop seg.length
        if rest = [] then
          match n.handlers with
          | some _ => none
          | none => some (.mk seg n.kind (some hs) n.children n.wild)
        else if rest.headD ' ' = ':' then
          let name := (rest.drop 1).takeWhile (fun x => x != '/')
          let after := (rest.drop 1).dropWhile (fun x => x != '/')
          match n.wild with
          | some w =>
            if w.kind = .param ∧ w.segment = name then
              match addRouteGo fuel w after hs with
              | some w2 => some (.mk seg n.kind n.handlers n.children (some w2))
              | none => none
            else none
          | none =>
            match attachChain (rest.length + 1) n.children none rest hs with
            | some (cs2, w2) => some (.mk seg n.kind n.handlers cs2 w2)
            | none => none
        else if rest.headD ' ' = '*' then none
        else
          match staticIdx n.children (rest.headD ' ') with
          | some i =>
            match addRouteGo fuel (n.children.getD i emptyNode) rest hs with
            | some c2 => some (.mk seg n.kind n.handlers (n.children.set i c2) n.wild)
            | none => none
          | none =>
            match attachChain (rest.length + 1) n.children n.wild rest hs with
            | some (cs2, w2) => some (.mk seg n.kind n.handlers cs2 w2)
            | none => none

/-- Insert a route pattern into a method tree (spec section 4.1).  Every tree
level below the root owns at least one pattern byte, so the fuel is ample. -/
def Node.addRoute (n : Node) (path : List Char) (hs : List Nat) : Option Node :=
  addRouteGo (path.length + 2) n path hs

/-- Case-insensitive equality of byte sequences. -/
def lowerEq (a b : List Char) : Bool :=
  a.map Char.toLower == b.map Char.toLower

/-- Index of the first static child whose leading byte matches `c` up to
case. -/
def ciChildIdx : List Node → Char → Option Nat
  | [], _ => none
  | n :: tl, c =>
    if n.segment.head?.map Char.toLower = some c.toLower then some 0
    else (ciChildIdx tl c).map (· + 1)

/-- Modelled from the spec: `CleanPath` — purely lexical canonicalization
that drops `.` segments, resolves `..` segments, collapses repeated `/` and
guarantees a leading `/` (spec section 4.3; `tree.go`/`path.go` are not in
the provided sources).  A trailing `/` is preserved. -/
def cleanPath (p : List Char) : List Char :=
  if p = [] then ['/']
  else
    let keep := (p.splitOn '/').foldl
      (fun acc s =>
        if s = [] then acc
        else if s = ['.'] then acc
        else if s = ['.', '.'] then acc.dropLast
        else acc ++ [s])
      ([] : List (List Char))
    let core := '/' :: List.intercalate ['/'] keep
    if p.getLast? = some '/' ∧ core ≠ ['/'] then core ++ ['/'] else core

/-- Modelled from the spec: `findCaseInsensitivePath` — the same descent as
lookup but comparing segments case-insensitively, accumulating the casing
stored in the tree; parameter and catch-all captures are copied from the
request path unchanged; with `fixTrailingSlash` it also corrects a missing
or superfluous trailing `/` (spec section 4.3; `tree.go` is not in the
provided sources).  Returns the corrected path, or `none`. -/
def findCIGo : Nat → Node → List Char → Bool → Option (List Char)
  | 0, _, _, _ => none
  | fuel+1, n, path, fixTS =>
    match n.kind with
    | .catchAll => if n.handlers.isSome then some path else none
    | .param =>
      let value := path.takeWhile (fun c => c != '/')
      let rest := path.dropWhile (fun c => c != '/')
      if rest = [] then
        if n.handlers.isSome then some value
        else if fixTS && tsrCheck n then some (value ++ ['/'])
        else none
      else
        match staticIdx n.children '/' with
        | some i => (findCIGo fuel (n.children.getD i emptyNode) rest fixTS).map (value ++ ·)
        | none =>
          match n.wild with
          | some w => (findCIGo fuel w rest fixTS).map (value ++ ·)
          | none =>
            if fixTS && (rest == ['/']) && n.handlers.isSome then some value else none
    | .static =>
      if lowerEq path n.segment then
        if n.handlers.isSome then some n.segment
        else if fixTS && tsrCheck n then some (n.segment ++ ['/'])
        else none
      else if lowerEq (path.take n.segment.length) n.segment then
        let rest := path.drop n.segment.length
        match ciChildIdx n.children (rest.headD ' ') with
        | some i => (findCIGo fuel (n.children.getD i emptyNode) rest fixTS).map (n.segment ++ ·)
        | none =>
          match n.wild with
          | some w => (findCIGo fuel w rest fixTS).map (n.segment ++ ·)
          | none =>
            if fixTS && (rest == ['/']) && n.handlers.isSome then some n.segment else none
      else
        if fixTS && lowerEq (path ++ ['/']) n.segment && n.handlers.isSome then some n.segment
        else none

/-- Case-insensitive fixed-path recovery over a method tree
(spec section 4.3). -/
def Node.findCaseInsensitivePath (n : Node) (path : List Char) (fixTS : Bool) :
    Option (List Char) :=
  findCIGo (2 * path.length + 8) n path fixTS

/-! ## The Router facade

The definitions below are translated from the provided source
(`router.go` in the `middleware` package). -/

/-- `Router`: one tree per HTTP method plus the two redirect options
(source: `type Router struct`). The Go method map is modelled as an
association list. -/
structure Router where
  trees : List (String × Node)
  redirectTrailingSlash : Bool
  redirectFixedPath : Bool

/-- `NewRouter()`: path auto-correction, including trailing slashes, is
enabled by default (source: `NewRouter`). -/
def newRouter : Router :=
  { trees := [], redirectTrailingSlash := true, redirectFixedPath := true }

/-- Store the (possibly fresh) root for a method (source: `r.trees[method] =
root` after the lazy `make`). -/
def treesInsert : List (String × Node) → String → Node → List (String × Node)
  | [], m, n => [(m, n)]
  | (k, v) :: tl, m, n => if k = m then (k, n) :: tl else (k, v) :: treesInsert tl m n

/-- `Router.Handle`: fails fatally when the path does not begin with `/`
(in Go a panic; an empty path faults on the index access), lazily creates
the per-method tree and delegates to `addRoute` (source: `Handle`).
`none` models the registration-time panic. -/
def Router.handle (r : Router) (method : String) (path : List Char) (hs : List Nat) :
    Option Router :=
  if path.head? = some '/' then
    match ((r.trees.lookup method).getD emptyNode).addRoute path hs with
    | some root2 => some { r with trees := treesInsert r.trees method root2 }
    | none => none
  else none

/-- The lookup contract of spec section 4.4: delegate to the method's tree;
no tree means an immediate empty result (source: the `r.trees[req.Method]`
probe in `ServeHTTP`). -/
def Router.lookupRes (r : Router) (method : String) (path : List Char) : LookupResult :=
  match r.trees.lookup method with
  | some root => root.getValue path
  | none => ⟨none, [], false⟩

/-- The observable outcome of serving one request: run the matched handler
chain, issue a redirect, or report 404. -/
inductive Outcome where
  | matched (hs : List Nat) (ps : List Param)
  | redirect (code : Nat) (target : List Char)
  | notFound
deriving DecidableEq, Repr

/-- `Router.ServeHTTP` (source: `ServeHTTP`): look the path up in the
method's tree; on a match run the handlers with the bound params; otherwise,
except for CONNECT requests and the bare `/` path, issue a trailing-slash
redirect when hinted and enabled, else attempt case-insensitive fixed-path
recovery when enabled; the redirect status is 301 for GET and 307 for every
other method; everything else is a 404. -/
def Router.serve (r : Router) (method : String) (path : List Char) : Outcome :=
  match r.trees.lookup method with
  | some root =>
    match (root.getValue path).handlers with
    | some hs => .matched hs (root.getValue path).params
    | none =>
      if method ≠ "CONNECT" ∧ path ≠ ['/'] then
        if (root.getValue path).tsr ∧ r.redirectTrailingSlash then
          .redirect (if method = "GET" then 301 else 307)
            (if 1 < path.length ∧ path.getLast? = some '/' then path.dropLast
             else path ++ ['/'])
        else if r.redirectFixedPath then
          match root.findCaseInsensitivePath (cleanPath path) r.redirectTrailingSlash with
          | some fixed => .redirect (if method = "GET" then 301 else 307) fixed
          | none => .notFound
        else .notFound
      else .notFound
  | none => .notFound

/-- The fixed probe list of `GetSupportedMethods` (source: `var methods`). -/
def methods : List String := ["GET", "POST", "PUT", "PATCH", "DELETE", "HEAD"]

/-- `Router.GetSupportedMethods` (source: `GetSupportedMethods`): probe each
method of the fixed list whose tree exists and keep those whose lookup
returns a non-nil handler list. -/
def Router.getSupportedMethods (r : Router) (path : List Char) : List String :=
  methods.filter (fun m =>
    match r.trees.lookup m with
    | some root => (root.getValue path).handlers.isSome
    | none => false)

/-- Register a list of routes in order, starting from a fresh router;
`none` when any registration panics. -/
def routerOf : List (String × List Char × List Nat) → Option Router :=
  go newRouter
where
  go (r : Router) : List (String × List Char × List Nat) → Option Router
    | [] => some r
    | (m, p, hs) :: tl =>
      match r.handle m p hs with
      | some r2 => go r2 tl
      | none => none

/-- Shorthand: a path literal as a byte list. -/
def pstr (s : String) : List Char := s.toList

/-- A well-formed substitution of concrete values for the wildcards of a
route pattern, in declared left-to-right order: every named parameter
receives a non-empty slash-free value, and a catch-all receives a value
beginning with `/` that replaces the pattern's final `/*name` part (the
catch-all capture owns the preceding separator).  Returns the substituted
concrete path together with the parameter bindings the lookup must produce;
`none` when the values do not fit the pattern. -/
def substOk : Nat → List Char → List (List Char) → Option (List Char × List Param)
  | 0, _, _ => none
  | fuel+1, path, vals =>
    match findWildcard path with
    | none => if vals = [] then some (path, []) else none
    | some (lit, isCA, name, after) =>
      match vals with
      | [] => none
      | v :: vs =>
        if isCA then
          if vs = [] ∧ after = [] ∧ v.head? = some '/' then
            some (lit.dropLast ++ v, [⟨name, v⟩])
          else none
        else
          if v ≠ [] ∧ v.all (fun c => c != '/') then
            match substOk fuel after vs with
            | some (p2, bs) => some (lit ++ v ++ p2, ⟨name, v⟩ :: bs)
            | none => none
          else none

/-- The concrete router of the C1 witness: `/blog/:category/:post`
registered under GET. -/
def c1wr : Router :=
  (newRouter.handle "GET" (pstr "/blog/:category/:post") [5]).getD newRouter

/-! ## Helper lemmas -/

theorem staticIdx_lt : ∀ (cs : List Node) (c : Char) (i : Nat),
    staticIdx cs c = some i → i < cs.length := by
  intro cs
  induction cs with
  | nil => intro c i h; simp [staticIdx] at h
  | cons n tl ih =>
    intro c i h
    unfold staticIdx at h
    split at h
    · cases h
      simp
    · cases hj : staticIdx tl c with
      | none => rw [hj] at h; simp at h
      | some j =>
        rw [hj] at h
        simp only [Option.map_some'] at h
        cases h
        have := ih c j hj
        simp only [List.length_cons]
        omega

theorem set_getD_self : ∀ (l : List Node) (i : Nat), i < l.length →
    l.set i (l.getD i emptyNode) = l := by
  intro l
  induction l with
  | nil => intro i h; simp at h
  | cons a tl ih =>
    intro i h
    cases i with
    | zero => simp
    | succ j =>
      simp only [List.getD_cons_succ, List.set_cons_succ, List.cons.injEq, true_and]
      exact ih j (by simpa using h)

/-- The state-passing walk computes the pure walk's result and returns the
input tree unchanged: lookup mutates nothing. -/
theorem getValueStGo_eq : ∀ (fuel : Nat) (n : Node) (p : List Char) (ps : List Param),
    getValueStGo fuel n p ps = (getValueGo fuel n p ps, n) := by
  intro fuel
  induction fuel with
  | zero => intro n p ps; rfl
  | succ f ih =>
    intro n p ps
    cases n with
    | mk seg kind hs cs w =>
      unfold getValueStGo getValueGo
      simp only [Node.kind, Node.segment, Node.handlers, Node.children, Node.wild]
      split
      · -- catchAll
        rfl
      · -- param
        split
        · cases hs <;> rfl
        · split
          · next i heq =>
              simp only [ih]
              rw [set_getD_self cs i (staticIdx_lt cs _ i heq)]
          · split
            · simp only [ih]
            · rfl
      · -- static
        split
        · cases hs <;> rfl
        · split
          · split
            · next i heq =>
                simp only [ih]
                rw [set_getD_self cs i (staticIdx_lt cs _ i heq)]
            · split
              · simp only [ih]
              · rfl
          · rfl

theorem headD_of_head? {l : List Char} {a : Char} (h : l.head? = some a) (d : Char) :
    l.headD d = a := by
  cases l with
  | nil => simp at h
  | cons x t => simpa using h

theorem append_ne_left (l v : List Char) (hv : v ≠ []) : l ++ v ≠ l := by
  intro h
  have hlen := congrArg List.length h
  simp only [List.length_append] at hlen
  exact hv (List.length_eq_zero.mp (by omega))

theorem take_len_append (a b : List Char) : (a ++ b).take a.length = a := by
  induction a with
  | nil => rfl
  | cons x t ih => simp [ih]

theorem drop_len_append (a b : List Char) : (a ++ b).drop a.length = b := by
  induction a with
  | nil => rfl
  | cons x t ih => simp [ih]

theorem dropLast_head (l : List Char) (h : l.dropLast ≠ []) :
    l.dropLast.head? = l.head? := by
  cases l with
  | nil => simp at h
  | cons a t =>
    cases t with
    | nil => simp at h
    | cons b t2 => rfl

theorem dropWhile_slash_head : ∀ (l : List Char),
    List.dropWhile (fun c => c != '/') l ≠ [] →
    (List.dropWhile (fun c => c != '/') l).head? = some '/' := by
  intro l
  induction l with
  | nil => intro h; simp at h
  | cons a t ih =>
    intro h
    by_cases ha : a = '/'
    · subst ha
      simp [List.dropWhile]
    · rw [List.dropWhile_cons_of_pos (by simp [ha])] at h ⊢
      exact ih h

theorem takeWhile_slash_self : ∀ (v : List Char), v.all (fun c => c != '/') = true →
    v.takeWhile (fun c => c != '/') = v ∧ v.dropWhile (fun c => c != '/') = [] := by
  intro v
  induction v with
  | nil => intro h; exact ⟨rfl, rfl⟩
  | cons a t ih =>
    intro h
    simp only [List.all_cons, Bool.and_eq_true] at h
    obtain ⟨ha, ht⟩ := h
    obtain ⟨h1, h2⟩ := ih ht
    simp only [List.takeWhile_cons, List.dropWhile_cons, ha, if_true]
    exact ⟨by rw [h1], h2⟩

theorem takeWhile_slash_append : ∀ (v p2 : List Char), v.all (fun c => c != '/') = true →
    p2.head? = some '/' →
    (v ++ p2).takeWhile (fun c => c != '/') = v ∧
    (v ++ p2).dropWhile (fun c => c != '/') = p2 := by
  intro v p2 hall hh
  induction v with
  | nil =>
    cases p2 with
    | nil => simp at hh
    | cons b t2 =>
      have hb : b = '/' := by simpa using hh
      subst hb
      constructor
      · simp [List.takeWhile_cons]
      · simp [List.dropWhile_cons]
  | cons a t ih =>
    simp only [List.all_cons, Bool.and_eq_true] at hall
    obtain ⟨ha, ht⟩ := hall
    obtain ⟨h1, h2⟩ := ih ht
    rw [List.cons_append]
    simp only [List.takeWhile_cons, List.dropWhile_cons, ha, if_true]
    exact ⟨by rw [h1], h2⟩

theorem findWildcard_slash : ∀ (t lit : List Char) (ca : Bool) (name after : List Char),
    findWildcard ('/' :: t) = some (lit, ca, name, after) →
    ∃ l2, lit = '/' :: l2 ∧ findWildcard t = some (l2, ca, name, after) := by
  intro t lit ca name after h
  unfold findWildcard at h
  rw [if_neg (by decide), if_neg (by decide)] at h
  cases hft : findWildcard t with
  | none => rw [hft] at h; cases h
  | some tup =>
    obtain ⟨l2, k2, n2, a2⟩ := tup
    rw [hft] at h
    cases h
    exact ⟨l2, rfl, rfl⟩

theorem findWildcard_after : ∀ (path lit : List Char) (ca : Bool) (name after : List Char),
    findWildcard path = some (lit, ca, name, after) →
    after = [] ∨ after.head? = some '/' := by
  intro path
  induction path with
  | nil => intro lit ca name after h; cases h
  | cons c t ih =>
    intro lit ca name after h
    unfold findWildcard at h
    split at h
    · cases h
      by_cases hd : List.dropWhile (fun x => x != '/') t = []
      · exact Or.inl hd
      · exact Or.inr (dropWhile_slash_head t hd)
    · split at h
      · cases h
        by_cases hd : List.dropWhile (fun x => x != '/') t = []
        · exact Or.inl hd
        · exact Or.inr (dropWhile_slash_head t hd)
      · cases hft : findWildcard t with
        | none => rw [hft] at h; cases h
        | some tup =>
          obtain ⟨l2, k2, n2, a2⟩ := tup
          rw [hft] at h
          cases h
          exact ih _ _ _ _ hft

/-- Round-trip for a single registered pattern: the node chain built by
`attachChain` from a fresh pattern suffix, looked up at the corresponding
substituted concrete path, yields exactly the registered handlers and the
substituted bindings in declared left-to-right order. -/
theorem attach_roundtrip :
    ∀ (aF : Nat) (path : List Char) (hs : List Nat) (vals : List (List Char))
      (cs : List Node) (w : Option Node) (q : List Char) (bs : List Param) (sF : Nat),
      path.head? = some '/' →
      attachChain aF [] none path hs = some (cs, w) →
      substOk sF path vals = some (q, bs) →
      q.head? = some '/' ∧
      ((∃ c0, cs = [c0] ∧ w = none ∧ c0.segment.head? = some '/' ∧
          ∀ (gF : Nat) (ps : List Param), 2 * q.length + 2 ≤ gF →
            getValueGo gF c0 q ps = ⟨some hs, ps ++ bs, false⟩) ∨
        (cs = [] ∧ ∃ w0, w = some w0 ∧ w0.kind = .catchAll ∧
          ∀ (gF : Nat) (ps : List Param), 2 * q.length + 2 ≤ gF →
            getValueGo gF w0 q ps = ⟨some hs, ps ++ bs, false⟩)) := by
  intro aF
  induction aF with
  | zero =>
    intro path hs vals cs w q bs sF hp hat hsub
    exact absurd hat (by simp [attachChain])
  | succ f ih =>
    intro path hs vals cs w q bs sF hp hat hsub
    cases sF with
    | zero => exact absurd hsub (by simp [substOk])
    | succ sf =>
    unfold attachChain at hat
    unfold substOk at hsub
    cases hfw : findWildcard path with
    | none =>
      rw [hfw] at hat hsub
      simp only [] at hat hsub
      cases hat
      split at hsub
      · cases hsub
        refine ⟨hp, Or.inl ⟨mkStatic path hs, by simp, rfl, hp, ?_⟩⟩
        intro gF ps hg
        cases gF with
        | zero => omega
        | succ g =>
          unfold getValueGo
          simp [mkStatic, Node.kind, Node.segment, Node.handlers]
      · simp at hsub
    | some tup =>
      obtain ⟨lit, isCA, name, after⟩ := tup
      rw [hfw] at hat hsub
      simp only [] at hat hsub
      cases path with
      | nil => simp at hp
      | cons a t =>
        have ha : a = '/' := by simpa using hp
        subst ha
        obtain ⟨l2, hlit, hfw2⟩ := findWildcard_slash t lit isCA name after hfw
        subst hlit
        cases vals with
        | nil => simp at hsub
        | cons v vs =>
        simp only [] at hsub
        split at hat
        · simp at hat
        · split at hat
          · simp at hat
          · cases isCA with
            | true =>
              rw [if_pos rfl] at hat
              rw [if_pos rfl] at hsub
              split at hat
              · simp at hat
              · split at hat
                · simp at hat
                · split at hsub
                  · next hcond =>
                    obtain ⟨hvs, haft, hvh⟩ := hcond
                    cases hsub
                    have hvne : v ≠ [] := by
                      intro hh
                      rw [hh] at hvh
                      simp at hvh
                    unfold attachWild at hat
                    split at hat
                    · next hld =>
                      simp only [] at hat
                      cases hat
                      rw [hld]
                      refine ⟨by simpa using hvh, Or.inr ⟨rfl, _, rfl, rfl, ?_⟩⟩
                      intro gF ps hg
                      cases gF with
                      | zero => omega
                      | succ g => exact rfl
                    · next hld =>
                      cases hat
                      have hdh : (('/' :: l2).dropLast ++ v).head? = some '/' := by
                        have h2 := dropLast_head ('/' :: l2) hld
                        cases hdl : ('/' :: l2).dropLast with
                        | nil => exact absurd hdl hld
                        | cons d dl =>
                          rw [hdl] at h2
                          have hd : d = '/' := by simpa using h2
                          subst hd
                          simp
                      refine ⟨hdh, Or.inl
                        ⟨Node.mk (('/' :: l2).dropLast) .static none []
                            (some (Node.mk name .catchAll (some hs) [] none)),
                          by simp, rfl, ?_, ?_⟩⟩
                      · cases hdl : ('/' :: l2).dropLast with
                        | nil => exact absurd hdl hld
                        | cons d dl =>
                          have h2 := dropLast_head ('/' :: l2) hld
                          rw [hdl] at h2
                          simpa [Node.segment] using h2
                      · intro gF ps hg
                        have hld1 : 1 ≤ ('/' :: l2).dropLast.length :=
                          List.length_pos.mpr hld
                        have hv1 : 1 ≤ v.length := List.length_pos.mpr hvne
                        simp only [List.length_append, List.length_cons] at hg
                        cases gF with
                        | zero => omega
                        | succ g =>
                          unfold getValueGo
                          simp only [Node.kind, Node.segment, Node.handlers,
                            Node.children, Node.wild]
                          rw [if_neg (append_ne_left _ _ hvne),
                            if_pos (take_len_append ('/' :: l2).dropLast v).symm,
                            drop_len_append]
                          simp only [staticIdx]
                          cases g with
                          | zero => omega
                          | succ g2 =>
                            unfold getValueGo
                            simp [Node.kind, Node.segment, Node.handlers]
                  · simp at hsub
            | false =>
              rw [if_neg (by simp)] at hat
              rw [if_neg (by simp)] at hsub
              have hlitne : ('/' :: l2) ≠ [] := by simp
              split at hsub
              · next hvOK =>
                obtain ⟨hvne, hvall⟩ := hvOK
                cases hs2 : substOk sf after vs with
                | none => rw [hs2] at hsub; simp at hsub
                | some pb =>
                  obtain ⟨p2, bs2⟩ := pb
                  rw [hs2] at hsub
                  simp only [] at hsub
                  cases hsub
                  have hv1 : 1 ≤ v.length := List.length_pos.mpr hvne
                  obtain ⟨htw, hdw⟩ := takeWhile_slash_self v hvall
                  split at hat
                  · next haft =>
                    -- after = [] : terminal parameter
                    subst haft
                    -- invert the substitution of the empty suffix
                    have hp2 : p2 = [] ∧ bs2 = [] := by
                      cases sf with
                      | zero => simp [substOk] at hs2
                      | succ sf2 =>
                        unfold substOk at hs2
                        simp only [findWildcard] at hs2
                        split at hs2
                        · cases hs2; exact ⟨rfl, rfl⟩
                        · simp at hs2
                    obtain ⟨hp2e, hbs2e⟩ := hp2
                    subst hp2e
                    subst hbs2e
                    unfold attachWild at hat
                    rw [if_neg hlitne] at hat
                    cases hat
                    refine ⟨by simp, Or.inl
                      ⟨Node.mk ('/' :: l2) .static none []
                          (some (Node.mk name .param (some hs) [] none)),
                        by simp, rfl, rfl, ?_⟩⟩
                    intro gF ps hg
                    simp only [List.append_nil] at hg ⊢
                    simp only [List.length_append, List.length_cons] at hg
                    cases gF with
                    | zero => omega
                    | succ g =>
                      unfold getValueGo
                      simp only [Node.kind, Node.segment, Node.handlers,
                        Node.children, Node.wild]
                      rw [if_neg (append_ne_left _ _ hvne),
                        if_pos (take_len_append ('/' :: l2) v).symm,
                        drop_len_append]
                      simp only [staticIdx]
                      cases g with
                      | zero => omega
                      | succ g2 =>
                        unfold getValueGo
                        simp only [Node.kind, Node.segment, Node.handlers,
                          Node.children, Node.wild]
                        rw [htw, hdw]
                        simp
                  · next haft =>
                    -- after nonempty : recurse
                    have hafthead : after.head? = some '/' := by
                      rcases findWildcard_after _ _ _ _ _ hfw with h | h
                      · exact absurd h haft
                      · exact h
                    cases hat2 : attachChain f [] none after hs with
                    | none => rw [hat2] at hat; simp at hat
                    | some cw2 =>
                      obtain ⟨cs2, w2⟩ := cw2
                      rw [hat2] at hat
                      simp only [] at hat
                      unfold attachWild at hat
                      rw [if_neg hlitne] at hat
                      cases hat
                      obtain ⟨hq2h, hdisj2⟩ :=
                        ih after hs vs cs2 w2 p2 bs2 sf hafthead hat2 hs2
                      have hp2ne : p2 ≠ [] := by
                        intro hh
                        rw [hh] at hq2h
                        simp at hq2h
                      have hp21 : 1 ≤ p2.length := List.length_pos.mpr hp2ne
                      refine ⟨by simp, Or.inl
                        ⟨Node.mk ('/' :: l2) .static none []
                            (some (Node.mk name .param none cs2 w2)),
                          by simp, rfl, rfl, ?_⟩⟩
                      intro gF ps hg
                      simp only [List.length_append, List.length_cons] at hg
                      obtain ⟨htw2, hdw2⟩ := takeWhile_slash_append v p2 hvall hq2h
                      cases gF with
                      | zero => omega
                      | succ g =>
                        unfold getValueGo
                        simp only [Node.kind, Node.segment, Node.handlers,
                          Node.children, Node.wild]
                        rw [List.append_assoc]
                        have hvp2ne : v ++ p2 ≠ [] := fun hh =>
                          hvne (List.append_eq_nil.mp hh).1
                        rw [if_neg (append_ne_left _ _ hvp2ne),
                          if_pos (take_len_append ('/' :: l2) (v ++ p2)).symm,
                          drop_len_append]
                        simp only [staticIdx]
                        cases g with
                        | zero => omega
                        | succ g2 =>
                          unfold getValueGo
                          simp only [Node.kind, Node.segment, Node.handlers,
                            Node.children, Node.wild]
                          rw [htw2, hdw2, if_neg hp2ne, headD_of_head? hq2h]
                          rcases hdisj2 with ⟨c2, hcs2, hw2, hc2h, hlook2⟩ |
                            ⟨hcs2, w20, hw2, hk20, hlook2⟩
                          · subst hcs2
                            subst hw2
                            have hfu : 2 * p2.length + 2 ≤ g2 := by omega
                            have hl2 := hlook2 g2 (ps ++ [⟨name, v⟩]) hfu
                            have hsi : staticIdx [c2] '/' = some 0 := by
                              unfold staticIdx
                              rw [if_pos hc2h]
                            rw [hsi]
                            simp only [List.getD_cons_zero]
                            rw [hl2]
                            simp
                          · subst hcs2
                            subst hw2
                            have hfu : 2 * p2.length + 2 ≤ g2 := by omega
                            have hl2 := hlook2 g2 (ps ++ [⟨name, v⟩]) hfu
                            have hsi : staticIdx ([] : List Node) '/' = none := rfl
                            rw [hsi]
                            simp only []
                            rw [hl2]
                            simp
              · simp at hsub

/-- Inserting a pattern into a freshly allocated root builds exactly the
chain produced by `attachChain` below an empty-segment static root. -/
theorem addRoute_empty (t : List Char) (hs : List Nat) :
    Node.addRoute emptyNode ('/' :: t) hs =
      (attachChain (t.length + 2) [] none ('/' :: t) hs).map
        (fun cw => Node.mk [] .static none cw.1 cw.2) := by
  unfold Node.addRoute
  rw [show ('/' :: t).length + 2 = (t.length + 2) + 1 from by simp]
  unfold addRouteGo
  simp only [emptyNode, Node.kind, Node.segment, Node.children, Node.wild,
    Node.handlers]
  rw [show lcpLen ('/' :: t) [] = 0 from rfl]
  simp only [List.length_nil, List.drop_zero]
  rw [if_neg (by omega)]
  rw [if_neg (by simp)]
  rw [show ('/' :: t).headD ' ' = '/' from rfl]
  rw [if_neg (by decide), if_neg (by decide)]
  rw [show staticIdx [] '/' = (none : Option Nat) from rfl]
  simp only []
  rw [show ('/' :: t).length = t.length + 1 from by simp]
  cases attachChain (t.length + 1 + 1) [] none ('/' :: t) hs with
  | none => rfl
  | some cw =>
    rcases cw with ⟨cs2, w2⟩
    rfl

/-! ## Claim theorems -/

/-- C9: lookup is deterministic and side-effect-free: the state-passing walk
returns the tree unchanged, a second lookup on the returned tree gives the
same result, and the result is that of the pure lookup. -/
theorem c9_lookup_deterministic (root : Node) (p : List Char) :
    (root.getValueSt p).2 = root ∧
    ((root.getValueSt p).2.getValueSt p).1 = (root.getValueSt p).1 ∧
    (root.getValueSt p).1 = root.getValue p := by
  have h := getValueStGo_eq (2 * p.length + 8) root p []
  simp only [Node.getValueSt, Node.getValue, h]
  exact ⟨trivial, trivial, trivial⟩

/-- C2: with `/users/new` and `/users/:id` registered in either order in the
GET tree, looking up the concrete path `/users/new` returns the static
route's handlers with no parameters — not the parametrized route's handlers
with `id` bound to `"new"` — while a non-colliding path such as `/users/77`
still reaches the parametrized route. -/
theorem c2_static_over_wildcard :
    ((routerOf [("GET", pstr "/users/new", [0]), ("GET", pstr "/users/:id", [1])]).map
        (fun r => (r.serve "GET" (pstr "/users/new"), r.serve "GET" (pstr "/users/77"))) =
      some (.matched [0] [], .matched [1] [⟨pstr "id", pstr "77"⟩])) ∧
    ((routerOf [("GET", pstr "/users/:id", [1]), ("GET", pstr "/users/new", [0])]).map
        (fun r => (r.serve "GET" (pstr "/users/new"), r.serve "GET" (pstr "/users/77"))) =
      some (.matched [0] [], .matched [1] [⟨pstr "id", pstr "77"⟩])) :=
  ⟨by decide, by decide⟩

/-- C3 (counterexample): with only `/files/*filepath` registered, looking up
`/files/a/b/c` does <em>not</em> bind `filepath` to `"a/b/c"`: the catch-all
capture includes the leading separator, so the bound value is `"/a/b/c"`
(as the package doc comment states: `/files/LICENSE` gives
`filepath = "/LICENSE"`). -/
theorem c3_counterexample :
    ((routerOf [("GET", pstr "/files/*filepath", [0])]).map
        (fun r => r.serve "GET" (pstr "/files/a/b/c")) ≠
      some (.matched [0] [⟨pstr "filepath", pstr "a/b/c"⟩])) ∧
    ((routerOf [("GET", pstr "/files/*filepath", [0])]).map
        (fun r => r.serve "GET" (pstr "/files/a/b/c")) =
      some (.matched [0] [⟨pstr "filepath", pstr "/a/b/c"⟩])) :=
  ⟨by decide, by decide⟩

/-- C3 (amended): with only `/files/*filepath` registered, looking up
`/files/a/b/c` succeeds binding `filepath` to `"/a/b/c"` (the remainder
including its leading separator); looking up `/files/` succeeds binding
`filepath` to `"/"`; and looking up `/files` produces a redirect outcome
(the trailing-slash hint), never a successful match. -/
theorem c3_catch_all_amended :
    ((routerOf [("GET", pstr "/files/*filepath", [0])]).map
        (fun r => r.serve "GET" (pstr "/files/a/b/c")) =
      some (.matched [0] [⟨pstr "filepath", pstr "/a/b/c"⟩])) ∧
    ((routerOf [("GET", pstr "/files/*filepath", [0])]).map
        (fun r => r.serve "GET" (pstr "/files/")) =
      some (.matched [0] [⟨pstr "filepath", pstr "/"⟩])) ∧
    ((routerOf [("GET", pstr "/files/*filepath", [0])]).map
        (fun r => r.serve "GET" (pstr "/files")) =
      some (.redirect 301 (pstr "/files/"))) ∧
    ((routerOf [("GET", pstr "/files/*filepath", [0])]).map
        (fun r => (r.lookupRes "GET" (pstr "/files")).handlers) = some none) ∧
    ((routerOf [("GET", pstr "/files/*filepath", [0])]).map
        (fun r => (r.lookupRes "GET" (pstr "/files")).tsr) = some true) :=
  ⟨by decide, by decide, by decide, by decide, by decide⟩

/-- C4: with only `/foo` registered (under GET), looking up `/foo/` returns
no handlers, sets the trailing-slash hint, and the served outcome is a
redirect to `/foo`; symmetrically, with only `/foo/` registered (under
POST), looking up `/foo` yields the hint and a redirect to `/foo/`. -/
theorem c4_trailing_slash_symmetry :
    ((routerOf [("GET", pstr "/foo", [0])]).map
        (fun r =>
          ((r.lookupRes "GET" (pstr "/foo/")).handlers,
           (r.lookupRes "GET" (pstr "/foo/")).tsr,
           r.serve "GET" (pstr "/foo/"))) =
      some (none, true, .redirect 301 (pstr "/foo"))) ∧
    ((routerOf [("POST", pstr "/foo/", [0])]).map
        (fun r =>
          ((r.lookupRes "POST" (pstr "/foo")).handlers,
           (r.lookupRes "POST" (pstr "/foo")).tsr,
           r.serve "POST" (pstr "/foo"))) =
      some (none, true, .redirect 307 (pstr "/foo/"))) :=
  ⟨by decide, by decide⟩

/-- C5 (counterexample): `GetSupportedMethods` probes only the fixed list
GET/POST/PUT/PATCH/DELETE/HEAD.  A route registered (and served) under the
method `OPTIONS` has a matching registered route, yet `OPTIONS` does not
appear in the result, so the result is not the set of <em>all</em> methods
with a matching route. -/
theorem c5_counterexample :
    (routerOf [("OPTIONS", pstr "/x", [0])]).map
        (fun r => (r.getSupportedMethods (pstr "/x"), r.serve "OPTIONS" (pstr "/x"))) =
      some ([], .matched [0] []) := by decide

/-- C5 (amended): for every router and concrete path,
`GetSupportedMethods` returns exactly the methods of the fixed probe list
GET/POST/PUT/PATCH/DELETE/HEAD whose tree matches the path; in particular a
path registered only under GET yields exactly `["GET"]`. -/
theorem c5_supported_methods_amended :
    (∀ (r : Router) (p : List Char) (m : String),
      m ∈ r.getSupportedMethods p ↔ m ∈ methods ∧ (r.lookupRes m p).handlers.isSome) ∧
    ((routerOf [("GET", pstr "/x", [0])]).map (fun r => r.getSupportedMethods (pstr "/x")) =
      some ["GET"]) := by
  constructor
  · intro r p m
    unfold Router.getSupportedMethods Router.lookupRes
    rw [List.mem_filter]
    cases hl : r.trees.lookup m <;> simp [hl]
  · decide

/-- C6: a lookup whose method has no tree reports not-found immediately at
serve time (404 outcome, so no handlers run and no redirect is attempted)
and the raw lookup result is empty. -/
theorem c6_no_tree_not_found (r : Router) (m : String) (p : List Char)
    (h : r.trees.lookup m = none) :
    r.serve m p = .notFound ∧ r.lookupRes m p = ⟨none, [], false⟩ := by
  unfold Router.serve Router.lookupRes
  rw [h]
  exact ⟨rfl, rfl⟩

/-- C6 (witness): a router with a route only under GET, probed under POST. -/
theorem c6_witness :
    ((routerOf [("GET", pstr "/x", [0])]).getD newRouter).serve "POST" (pstr "/x") =
        .notFound ∧
      ((routerOf [("GET", pstr "/x", [0])]).getD newRouter).lookupRes "POST" (pstr "/x") =
        ⟨none, [], false⟩ :=
  c6_no_tree_not_found ((routerOf [("GET", pstr "/x", [0])]).getD newRouter) "POST"
    (pstr "/x") rfl

/-- C7: `Handle` fails fatally at registration time whenever the path does
not begin with `/` (including the empty path, which faults on the index
access), and for every path that does begin with `/` the validation passes
and the registration is exactly the result of `addRoute` on the lazily
created per-method tree. -/
theorem c7_handle_validation (r : Router) (m : String) (p : List Char) (hs : List Nat) :
    (p.head? ≠ some '/' → r.handle m p hs = none) ∧
    (p.head? = some '/' →
      r.handle m p hs =
        match ((r.trees.lookup m).getD emptyNode).addRoute p hs with
        | some root2 => some { r with trees := treesInsert r.trees m root2 }
        | none => none) := by
  constructor
  · intro h
    unfold Router.handle
    rw [if_neg h]
  · intro h
    unfold Router.handle
    rw [if_pos h]

/-- C7 (witness): `users` is rejected fatally; `/users` passes validation
and proceeds to `addRoute` on the fresh tree. -/
theorem c7_witness :
    newRouter.handle "GET" (pstr "users") [0] = none ∧
    newRouter.handle "GET" (pstr "/users") [0] =
      match ((newRouter.trees.lookup "GET").getD emptyNode).addRoute (pstr "/users") [0] with
      | some root2 => some { newRouter with trees := treesInsert newRouter.trees "GET" root2 }
      | none => none :=
  ⟨(c7_handle_validation newRouter "GET" (pstr "users") [0]).1 (by decide),
   (c7_handle_validation newRouter "GET" (pstr "/users") [0]).2 (by decide)⟩

/-- C8: every redirect outcome produced while serving — trailing-slash or
fixed-path alike — carries status 301 exactly when the request method is
GET, and 307 for every other method. -/
theorem c8_redirect_status (r : Router) (m : String) (p : List Char) (code : Nat)
    (t : List Char) (h : r.serve m p = .redirect code t) :
    code = if m = "GET" then 301 else 307 := by
  unfold Router.serve at h
  split at h
  · split at h
    · exact absurd h (by simp)
    · split at h
      · split at h
        · injection h with h1 h2
          exact h1.symm
        · split at h
          · split at h
            · injection h with h1 h2
              exact h1.symm
            · exact absurd h (by simp)
          · exact absurd h (by simp)
      · exact absurd h (by simp)
  · exact absurd h (by simp)

/-- C8 (witness): a trailing-slash redirect under GET carries 301, and under
POST carries 307. -/
theorem c8_witness :
    (301 = if "GET" = "GET" then 301 else 307) ∧
    (307 = if "POST" = "GET" then 301 else 307) :=
  ⟨c8_redirect_status ((routerOf [("GET", pstr "/foo", [0])]).getD newRouter) "GET"
      (pstr "/foo/") 301 (pstr "/foo") (by decide),
   c8_redirect_status ((routerOf [("POST", pstr "/foo/", [0])]).getD newRouter) "POST"
      (pstr "/foo") 307 (pstr "/foo/") (by decide)⟩

/-- C10: for a CONNECT request, and for the bare path `/`, serving never
issues a redirect: the outcome is the match when the lookup finds handlers
and the 404 not-found outcome otherwise, regardless of the redirect hints
and of the `RedirectTrailingSlash`/`RedirectFixedPath` settings. -/
theorem c10_connect_root_no_redirect (r : Router) (m : String) (p : List Char)
    (h : m = "CONNECT" ∨ p = ['/']) :
    r.serve m p =
      match (r.lookupRes m p).handlers with
      | some hs => .matched hs (r.lookupRes m p).params
      | none => .notFound := by
  unfold Router.serve Router.lookupRes
  split
  · split
    · rfl
    · have hcond : ¬ (m ≠ "CONNECT" ∧ p ≠ ['/']) := by
        rcases h with h | h <;> simp [h]
      rw [if_neg hcond]
  · rfl

/-- C10 (witness): a CONNECT request on a path whose GET-style lookup would
redirect, and a `/` request with a redirect hint available, both produce the
404 outcome. -/
theorem c10_witness :
    ((routerOf [("CONNECT", pstr "/foo", [0])]).getD newRouter).serve "CONNECT"
        (pstr "/foo/") =
      (match ((((routerOf [("CONNECT", pstr "/foo", [0])]).getD newRouter).lookupRes
          "CONNECT" (pstr "/foo/")).handlers) with
       | some hs =>
         Outcome.matched hs
           ((((routerOf [("CONNECT", pstr "/foo", [0])]).getD newRouter).lookupRes
             "CONNECT" (pstr "/foo/")).params)
       | none => Outcome.notFound) :=
  c10_connect_root_no_redirect ((routerOf [("CONNECT", pstr "/foo", [0])]).getD newRouter)
    "CONNECT" (pstr "/foo/") (Or.inl rfl)

/-- C1 (counterexample): with the non-conflicting patterns `/users/new`
(handlers `[0]`) and `/users/:id` (handlers `[1]`) registered in one GET
tree, substituting the value `"new"` for the wildcard `id` of `/users/:id`
gives the path `/users/new`, whose lookup does <em>not</em> return the
originating pattern's handlers `[1]` with `id = "new"` — the static route's
handlers `[0]` with no parameters are returned instead. -/
theorem c1_counterexample :
    ((routerOf [("GET", pstr "/users/new", [0]), ("GET", pstr "/users/:id", [1])]).map
        (fun r => r.serve "GET" (pstr "/users/new")) ≠
      some (.matched [1] [⟨pstr "id", pstr "new"⟩])) ∧
    ((routerOf [("GET", pstr "/users/new", [0]), ("GET", pstr "/users/:id", [1])]).map
        (fun r => r.serve "GET" (pstr "/users/new")) =
      some (.matched [0] [])) :=
  ⟨by decide, by decide⟩

/-- C1 (amended): for every single route pattern registered alone into one
method's tree and every well-formed assignment of concrete values to its
wildcards (non-empty slash-free values for named parameters; a value
beginning with `/` replacing the final `/*name` part for a catch-all, since
the catch-all capture owns the preceding separator), serving the substituted
path returns exactly that pattern's handler list, and the parameter sequence
pairs each wildcard's name with its substituted value, ordered left-to-right
as declared (first wildcard encountered = index 0). -/
theorem c1_roundtrip_amended (m : String) (path : List Char) (hs : List Nat)
    (vals : List (List Char)) (r : Router) (q : List Char) (bs : List Param)
    (sF : Nat) (hreg : newRouter.handle m path hs = some r)
    (hsub : substOk sF path vals = some (q, bs)) :
    r.serve m q = .matched hs bs := by
  unfold Router.handle at hreg
  split at hreg
  case isFalse => exact absurd hreg (by simp)
  case isTrue hp =>
  rw [show (newRouter.trees.lookup m) = none from rfl] at hreg
  simp only [Option.getD_none] at hreg
  cases path with
  | nil => simp at hp
  | cons a t =>
    have ha : a = '/' := by simpa using hp
    subst ha
    rw [addRoute_empty t hs] at hreg
    cases hac : attachChain (t.length + 2) [] none ('/' :: t) hs with
    | none => rw [hac] at hreg; simp at hreg
    | some cw =>
      obtain ⟨cs, w⟩ := cw
      rw [hac] at hreg
      simp only [Option.map_some'] at hreg
      cases hreg
      obtain ⟨hqh, hdisj⟩ :=
        attach_roundtrip (t.length + 2) ('/' :: t) hs vals cs w q bs sF rfl hac hsub
      unfold Router.serve
      rw [show List.lookup m
          (treesInsert newRouter.trees m (Node.mk [] .static none cs w)) =
          some (Node.mk [] .static none cs w) from by simp [treesInsert, newRouter]]
      simp only []
      have hgv : (Node.mk [] .static none cs w).getValue q =
          ⟨some hs, [] ++ bs, false⟩ := by
        cases q with
        | nil => simp at hqh
        | cons b q2 =>
          have hb : b = '/' := by simpa using hqh
          subst hb
          unfold Node.getValue
          rw [show 2 * ('/' :: q2).length + 8 = (2 * ('/' :: q2).length + 7) + 1
            from rfl]
          unfold getValueGo
          simp only [Node.kind, Node.segment, Node.children, Node.wild,
            Node.handlers]
          rw [if_neg (by simp)]
          rw [if_pos (by simp)]
          simp only [List.length_nil, List.drop_zero]
          rw [show ('/' :: q2).headD ' ' = '/' from rfl]
          rcases hdisj with ⟨c0, hcs, hw, hc0h, hlook⟩ |
            ⟨hcs, w0, hw, hk0, hlook⟩
          · subst hcs
            subst hw
            have hsi : staticIdx [c0] '/' = some 0 := by
              unfold staticIdx
              rw [if_pos hc0h]
            rw [hsi]
            simp only [List.getD_cons_zero]
            exact hlook (2 * ('/' :: q2).length + 7) [] (by omega)
          · subst hcs
            subst hw
            rw [show staticIdx [] '/' = (none : Option Nat) from rfl]
            simp only []
            exact hlook (2 * ('/' :: q2).length + 7) [] (by omega)
      rw [hgv]
      simp

/-- C1 (amended, witness): substituting `category := "go"` and
`post := "routers"` and serving the substituted path. -/
theorem c1_roundtrip_witness :
    newRouter.handle "GET" (pstr "/blog/:category/:post") [5] = some c1wr ∧
    c1wr.serve "GET" (pstr "/blog/go/routers") =
      .matched [5] [⟨pstr "category", pstr "go"⟩, ⟨pstr "post", pstr "routers"⟩] := by
  have hreg : newRouter.handle "GET" (pstr "/blog/:category/:post") [5] =
      some c1wr := rfl
  refine ⟨hreg, ?_⟩
  exact c1_roundtrip_amended "GET" (pstr "/blog/:category/:post") [5]
    [pstr "go", pstr "routers"] c1wr (pstr "/blog/go/routers")
    [⟨pstr "category", pstr "go"⟩, ⟨pstr "post", pstr "routers"⟩]
    ((pstr "/blog/:category/:post").length + 1) hreg (by decide)

end Bowtie
